import Mathlib

/-!
# Verification of the b58uuid codec and CLI front-end

The repository is a command-line utility converting between the 36-character
hyphenated UUID text form and a fixed-width 22-character Base58 encoding of
the same 128-bit value.  The CLI front-end (`src/main.rs`) is embedded from
the source; the codec library it calls (`b58uuid::encode_uuid`,
`b58uuid::decode_to_uuid`) is not part of the source tree, so those
operations are modelled from the specification.

Strings are embedded as `List Char`, byte buffers as `List Nat` with each
element below 256.
-/

namespace B58Uuid

/-- Error taxonomy of the codec.  `invalidUuidFormat` carries the offending
input, as the spec requires error values to carry enough information to
print a diagnostic including the offending input string. -/
inductive CodecErr : Type where
  | invalidUuidFormat (input : List Char) : CodecErr
  | invalidB58Format : CodecErr
  | valueOverflow : CodecErr
  deriving DecidableEq, Repr

instance {ε α : Type} [DecidableEq ε] [DecidableEq α] : DecidableEq (Except ε α)
  | .ok a, .ok b =>
    if h : a = b then .isTrue (by rw [h]) else .isFalse (by simp [h])
  | .ok _, .error _ => .isFalse (by simp)
  | .error _, .ok _ => .isFalse (by simp)
  | .error e, .error f =>
    if h : e = f then .isTrue (by rw [h]) else .isFalse (by simp [h])

/-! ## Base58 alphabet (Bitcoin-style) -/

/-- Modelled from the spec: the fixed 58-character Bitcoin-style Base58
alphabet table (digits 1–9, uppercase A–H,J–N,P–Z, lowercase a–k,m–z;
excludes `0`, `O`, `I`, `l`). -/
def ALPHABET : List Char :=
  "123456789ABCDEFGHJKLMNPQRSTUVWXYZabcdefghijkmnopqrstuvwxyz".toList

/-- Character of a base-58 digit value: position `d` of the alphabet table. -/
def b58Char (d : Nat) : Char := ALPHABET.getD d '1'

/-- Alphabet index of a character: its 0–57 position in `l`, or `none` when
the character is not in `l`. -/
def charIdx : List Char → Char → Option Nat
  | [], _ => none
  | a :: r, c => if a = c then some 0 else (charIdx r c).map (· + 1)

/-- Alphabet indices of a whole string; `none` as soon as one character is
outside the alphabet. -/
def charIndices : List Char → Option (List Nat)
  | [] => some []
  | c :: r =>
    match charIdx ALPHABET c, charIndices r with
    | some i, some t => some (i :: t)
    | _, _ => none

/-! ## 128-bit value ↔ 16-byte big-endian buffer -/

/-- Big-endian value of a byte buffer. -/
def bytesToNat (b : List Nat) : Nat := b.foldl (fun a x => a * 256 + x) 0

/-- Render `n` as exactly `k` big-endian bytes, zero-extending on the left. -/
def natToBytes : Nat → Nat → List Nat
  | 0, _ => []
  | k + 1, n => natToBytes k (n / 256) ++ [n % 256]

/-! ## Base58 digits of a 128-bit value -/

/-- Modelled from the spec: repeatedly divide by 58 recording remainders,
least-significant digit first, until the value reaches zero.  The first
argument is fuel bounding the recursion; `b58ToDigits` supplies enough. -/
def b58ToDigitsAux : Nat → Nat → List Nat
  | 0, _ => []
  | fuel + 1, n => if n = 0 then [] else n % 58 :: b58ToDigitsAux fuel (n / 58)

/-- Base-58 digits of `n`, least-significant first. -/
def b58ToDigits (n : Nat) : List Nat := b58ToDigitsAux n n

/-- Most-significant-first accumulated value of a digit list:
`acc = acc*58 + digit` per character, starting from zero. -/
def msbValue (ds : List Nat) : Nat := ds.foldl (fun a d => a * 58 + d) 0

/-! ## Base58 codec.  Both functions are modelled from the spec: the codec
library crate is not under the source tree. -/

/-- Base-58 digits of `n` most-significant first, left-padded with digit
value 0 to exactly 22 digits. -/
def b58Digits22 (n : Nat) : List Nat :=
  let ds := (b58ToDigits n).reverse
  List.replicate (22 - ds.length) 0 ++ ds

/-- Modelled from the spec: `Encode(16-byte buffer) → 22-char string`.
Treat the bytes as a big-endian 128-bit integer, take its base-58 digits
most-significant first, left-pad with the alphabet's zero-index character
to exactly 22 characters, and map through the alphabet table. -/
def encode_b58 (b : List Nat) : List Char :=
  (b58Digits22 (bytesToNat b)).map b58Char

/-- Modelled from the spec: `Decode(22-char string) → 16-byte buffer`.
Reject length ≠ 22 and characters outside the alphabet with
`InvalidB58Format`; accumulate `acc*58 + index` left to right; reject
values ≥ 2^128 with `ValueOverflow`; render as 16 big-endian bytes. -/
def decode_b58 (s : List Char) : Except CodecErr (List Nat) :=
  if s.length = 22 then
    match charIndices s with
    | some ds =>
      if msbValue ds < 2 ^ 128 then .ok (natToBytes 16 (msbValue ds))
      else .error .valueOverflow
    | none => .error .invalidB58Format
  else .error .invalidB58Format

/-! ## UUID parser / formatter.  Modelled from the spec: the library crate
holding them is not under the source tree. -/

/-- Value of a hexadecimal digit character (case-insensitive), `none` for a
non-hex character. -/
def hexVal (c : Char) : Option Nat :=
  if 48 ≤ c.toNat ∧ c.toNat ≤ 57 then some (c.toNat - 48)
  else if 97 ≤ c.toNat ∧ c.toNat ≤ 102 then some (c.toNat - 87)
  else if 65 ≤ c.toNat ∧ c.toNat ≤ 70 then some (c.toNat - 55)
  else none

/-- Lowercase hex character of a value below 16. -/
def hexChar (n : Nat) : Char :=
  if n < 10 then Char.ofNat (48 + n) else Char.ofNat (87 + n)

/-- ASCII lowercase normalization of one character. -/
def lowerChar (c : Char) : Char :=
  if 65 ≤ c.toNat ∧ c.toNat ≤ 90 then Char.ofNat (c.toNat + 32) else c

/-- Decode consecutive pairs of hex digits into bytes, big-endian within
each pair; `none` on a non-hex character or odd length. -/
def hexPairs : List Char → Option (List Nat)
  | [] => some []
  | c1 :: c2 :: rest =>
    match hexVal c1, hexVal c2, hexPairs rest with
    | some h, some l, some r => some ((h * 16 + l) :: r)
    | _, _, _ => none
  | [_] => none

/-- Modelled from the spec: `Parse(text) → 16-byte buffer`.  Accepts input
with or without hyphens; if hyphens are present they must appear exactly at
the four canonical positions 8, 13, 18, 23; after removing hyphens the
remaining string must be exactly 32 hex digits (case-insensitive).  All
malformed inputs fail with `InvalidUuidFormat` carrying the input. -/
def parse_uuid (s : List Char) : Except CodecErr (List Nat) :=
  let stripped := s.filter (fun c => c ≠ '-')
  if stripped.length = 32 ∧
      (stripped = s ∨
        (s.length = 36 ∧ s.get? 8 = some '-' ∧ s.get? 13 = some '-' ∧
          s.get? 18 = some '-' ∧ s.get? 23 = some '-')) then
    match hexPairs stripped with
    | some bytes => .ok bytes
    | none => .error (.invalidUuidFormat s)
  else .error (.invalidUuidFormat s)

/-- Two lowercase hex characters of a byte. -/
def byteHex (b : Nat) : List Char := [hexChar (b / 16), hexChar (b % 16)]

/-- Insert hyphens into a 32-character string at the canonical positions
8, 13, 18, 23 (groups 8-4-4-4-12). -/
def hyphenate (x : List Char) : List Char :=
  x.take 8 ++ '-' :: ((x.drop 8).take 4 ++ '-' :: (((x.drop 8).drop 4).take 4 ++
    '-' :: ((((x.drop 8).drop 4).drop 4).take 4 ++
      '-' :: (((x.drop 8).drop 4).drop 4).drop 4)))

/-- Modelled from the spec: `Format(16-byte buffer) → text`: lowercase hex
with hyphens at positions 8, 13, 18, 23. -/
def formatUuid (b : List Nat) : List Char := hyphenate (b.flatMap byteHex)

/-! ## Library entry points (modelled from the spec, interface of section 6) -/

/-- Modelled from the spec: `encode(uuid_text) -> Result<b58_text, Error>`:
parse the UUID text to 16 bytes, then Base58-encode. -/
def encode_uuid (s : List Char) : Except CodecErr (List Char) :=
  (parse_uuid s).map encode_b58

/-- Modelled from the spec: `decode(b58_text) -> Result<uuid_text, Error>`:
Base58-decode to 16 bytes, then format as UUID text. -/
def decode_to_uuid (s : List Char) : Except CodecErr (List Char) :=
  (decode_b58 s).map formatUuid

/-! ## CLI front-end, embedded from `src/main.rs` -/

/-- Rust's `str::trim`: remove leading and trailing whitespace. -/
def rustTrim (s : List Char) : List Char :=
  ((s.dropWhile Char.isWhitespace).reverse.dropWhile Char.isWhitespace).reverse

/-- One observable event of a batch run: a line printed to stdout, or an
error report printed to stderr for the given (trimmed) input. -/
inductive OutEvent : Type where
  | out (s : List Char) : OutEvent
  | err (input : List Char) (e : CodecErr) : OutEvent
  deriving DecidableEq, Repr

/-- Events produced for one input line of `encode_from_stdin` /
`encode_from_file` (`src/main.rs:195-203` and `212-219`): trim, skip when
empty, print the encoding or report the error and continue. -/
def encodeLine (line : List Char) : List OutEvent :=
  let uuid_str := rustTrim line
  if uuid_str = [] then []
  else
    match encode_uuid uuid_str with
    | .ok b58 => [.out b58]
    | .error e => [.err uuid_str e]

/-- Batch encode over input lines (`encode_from_stdin` / `encode_from_file`
loop): per-line events concatenated in input order. -/
def encodeBatch (lines : List (List Char)) : List OutEvent :=
  lines.flatMap encodeLine

/-- Events produced for one input line of `decode_from_stdin` /
`decode_from_file` (`src/main.rs:240-248` and `257-264`). -/
def decodeLine (line : List Char) : List OutEvent :=
  let b58_str := rustTrim line
  if b58_str = [] then []
  else
    match decode_to_uuid b58_str with
    | .ok uuid => [.out uuid]
    | .error e => [.err b58_str e]

/-- Batch decode over input lines. -/
def decodeBatch (lines : List (List Char)) : List OutEvent :=
  lines.flatMap decodeLine

/-- Observable outcome of a single-value CLI invocation: a printed value,
or an error report followed by `exit(1)`. -/
inductive SingleResult : Type where
  | printed (s : List Char) : SingleResult
  | exitErr (e : CodecErr) : SingleResult
  deriving DecidableEq, Repr

/-- `encode_single` (`src/main.rs:179-191`): trim, encode, print or exit. -/
def encode_single (uuid_str : List Char) : SingleResult :=
  match encode_uuid (rustTrim uuid_str) with
  | .ok b58 => .printed b58
  | .error e => .exitErr e

/-- `decode_single` (`src/main.rs:224-236`): trim, decode, print or exit. -/
def decode_single (b58_str : List Char) : SingleResult :=
  match decode_to_uuid (rustTrim b58_str) with
  | .ok uuid => .printed uuid
  | .error e => .exitErr e

/-- Observable outcome of `validate`. -/
inductive ValidateResult : Type where
  | validB58 (uuid : List Char) : ValidateResult
  | validUuidRes (b58 : List Char) : ValidateResult
  | invalid : ValidateResult
  deriving DecidableEq, Repr

/-- `validate_value` (`src/main.rs:282-305`): trim, try decoding as
B58UUID, then try encoding as UUID, else invalid (exit 1). -/
def validate_value (value : List Char) : ValidateResult :=
  let v := rustTrim value
  match decode_to_uuid v with
  | .ok uuid => .validB58 uuid
  | .error _ =>
    match encode_uuid v with
    | .ok b58 => .validUuidRes b58
    | .error _ => .invalid

/-! ## The validity predicate of claim C7, stated in the claim's own words -/

/-- The claim's description of a syntactically valid UUID text: after
removing hyphens, exactly 32 case-insensitive hex digits; and if hyphens
are present at all, they appear exactly at positions 8, 13, 18, 23 (so the
input has length 36 and exactly four hyphens). -/
def uuidClaimValid (s : List Char) : Prop :=
  ((s.filter (fun c => c ≠ '-')).length = 32 ∧
    ∀ c ∈ s.filter (fun c => c ≠ '-'), (hexVal c).isSome) ∧
  ('-' ∈ s →
    s.length = 36 ∧ s.get? 8 = some '-' ∧ s.get? 13 = some '-' ∧
      s.get? 18 = some '-' ∧ s.get? 23 = some '-' ∧
      (s.filter (fun c => c = '-')).length = 4)

instance (s : List Char) : Decidable (uuidClaimValid s) := by
  unfold uuidClaimValid
  exact inferInstance

/-! ## Arithmetic lemmas about the byte-buffer embedding -/

theorem foldl_mul_add (b : List Nat) (acc : Nat) :
    b.foldl (fun a x => a * 256 + x) acc = acc * 256 ^ b.length + bytesToNat b := by
  induction b generalizing acc with
  | nil => simp [bytesToNat]
  | cons x r ih =>
    show List.foldl _ (acc * 256 + x) r = _
    rw [ih (acc * 256 + x)]
    have hx : bytesToNat (x :: r) = x * 256 ^ r.length + bytesToNat r := by
      show List.foldl _ (0 * 256 + x) r = _
      rw [ih (0 * 256 + x)]; ring_nf
    rw [hx]
    simp [List.length_cons, pow_succ]
    ring

theorem bytesToNat_lt (b : List Nat) (hb : ∀ x ∈ b, x < 256) :
    bytesToNat b < 256 ^ b.length := by
  induction b with
  | nil => simp [bytesToNat]
  | cons x r ih =>
    have hx : x < 256 := hb x (List.mem_cons_self x r)
    have hr := ih (fun y hy => hb y (List.mem_cons_of_mem x hy))
    have : bytesToNat (x :: r) = x * 256 ^ r.length + bytesToNat r := by
      show List.foldl _ (0 * 256 + x) r = _
      rw [foldl_mul_add]; ring_nf
    rw [this, List.length_cons, pow_succ]
    calc x * 256 ^ r.length + bytesToNat r
        < x * 256 ^ r.length + 256 ^ r.length := by omega
      _ = (x + 1) * 256 ^ r.length := by ring
      _ ≤ 256 * 256 ^ r.length := by
          exact Nat.mul_le_mul_right _ (by omega)
      _ = 256 ^ r.length * 256 := by ring

theorem bytesToNat_append_singleton (l : List Nat) (x : Nat) :
    bytesToNat (l ++ [x]) = bytesToNat l * 256 + x := by
  unfold bytesToNat
  rw [List.foldl_append]
  rfl

theorem natToBytes_bytesToNat (b : List Nat) (hb : ∀ x ∈ b, x < 256) :
    natToBytes b.length (bytesToNat b) = b := by
  induction b using List.reverseRecOn with
  | nil => rfl
  | append_singleton l x ih =>
    have hx : x < 256 := hb x (by simp)
    have hl : ∀ y ∈ l, y < 256 := fun y hy => hb y (by simp [hy])
    rw [bytesToNat_append_singleton, List.length_append, List.length_singleton]
    show natToBytes (l.length + 1) (bytesToNat l * 256 + x) = l ++ [x]
    have hdiv : (bytesToNat l * 256 + x) / 256 = bytesToNat l := by omega
    have hmod : (bytesToNat l * 256 + x) % 256 = x := by omega
    rw [natToBytes, hdiv, hmod, ih hl]

/-! ## Lemmas about base-58 digit extraction -/

theorem b58ToDigitsAux_value (fuel : Nat) :
    ∀ n, n ≤ fuel → (b58ToDigitsAux fuel n).foldr (fun d a => a * 58 + d) 0 = n := by
  induction fuel with
  | zero => intro n hn; interval_cases n; rfl
  | succ f ih =>
    intro n hn
    by_cases h0 : n = 0
    · subst h0; simp [b58ToDigitsAux]
    · have hlt : n / 58 < n := Nat.div_lt_self (Nat.pos_of_ne_zero h0) (by omega)
      rw [b58ToDigitsAux, if_neg h0, List.foldr_cons, ih (n / 58) (by omega)]
      omega

theorem b58ToDigitsAux_lt (fuel : Nat) :
    ∀ n, ∀ d ∈ b58ToDigitsAux fuel n, d < 58 := by
  induction fuel with
  | zero => intro n d hd; simp [b58ToDigitsAux] at hd
  | succ f ih =>
    intro n d hd
    by_cases h0 : n = 0
    · subst h0; simp [b58ToDigitsAux] at hd
    · rw [b58ToDigitsAux, if_neg h0] at hd
      rcases List.mem_cons.mp hd with h | h
      · subst h; exact Nat.mod_lt _ (by omega)
      · exact ih (n / 58) d h

theorem b58ToDigitsAux_length (fuel : Nat) :
    ∀ n k, n ≤ fuel → n < 58 ^ k → (b58ToDigitsAux fuel n).length ≤ k := by
  induction fuel with
  | zero => intro n k hn hk; interval_cases n; simp [b58ToDigitsAux]
  | succ f ih =>
    intro n k hn hk
    by_cases h0 : n = 0
    · subst h0; simp [b58ToDigitsAux]
    · rw [b58ToDigitsAux, if_neg h0]
      cases k with
      | zero => simp at hk; omega
      | succ k' =>
        have hdiv : n / 58 < 58 ^ k' := by
          rw [Nat.div_lt_iff_lt_mul (by omega : 0 < 58)]
          calc n < 58 ^ (k' + 1) := hk
            _ = 58 ^ k' * 58 := by rw [pow_succ]
        have hfuel : n / 58 ≤ f := by
          have : n / 58 < n := Nat.div_lt_self (Nat.pos_of_ne_zero h0) (by omega)
          omega
        simpa using Nat.succ_le_succ (ih (n / 58) k' hfuel hdiv)

theorem msbValue_reverse (l : List Nat) :
    msbValue l.reverse = l.foldr (fun d a => a * 58 + d) 0 := by
  unfold msbValue
  rw [List.foldl_reverse]

theorem foldl_replicate_zero (j : Nat) :
    List.foldl (fun a d => a * 58 + d) 0 (List.replicate j 0) = 0 := by
  induction j with
  | zero => rfl
  | succ i ih => simpa [List.replicate_succ] using ih

theorem msbValue_replicate_zero_append (j : Nat) (l : List Nat) :
    msbValue (List.replicate j 0 ++ l) = msbValue l := by
  unfold msbValue
  rw [List.foldl_append, foldl_replicate_zero]

/-! ## Lemmas about the alphabet table -/

theorem charIdx_b58Char : ∀ d, d < 58 → charIdx ALPHABET (b58Char d) = some d := by
  decide

theorem charIndices_map (ds : List Nat) (h : ∀ d ∈ ds, d < 58) :
    charIndices (ds.map b58Char) = some ds := by
  induction ds with
  | nil => rfl
  | cons d r ih =>
    have hd : d < 58 := h d (List.mem_cons_self d r)
    have hr := ih (fun y hy => h y (List.mem_cons_of_mem d hy))
    rw [List.map_cons, charIndices, charIdx_b58Char d hd, hr]

/-! ## Properties of the padded 22-digit form -/

theorem b58ToDigits_value (n : Nat) :
    (b58ToDigits n).foldr (fun d a => a * 58 + d) 0 = n :=
  b58ToDigitsAux_value n n le_rfl

theorem b58ToDigits_lt (n : Nat) : ∀ d ∈ b58ToDigits n, d < 58 :=
  b58ToDigitsAux_lt n n

theorem b58ToDigits_length (n k : Nat) (h : n < 58 ^ k) :
    (b58ToDigits n).length ≤ k :=
  b58ToDigitsAux_length n n k le_rfl h

theorem b58Digits22_lt (n : Nat) : ∀ d ∈ b58Digits22 n, d < 58 := by
  intro d hd
  rcases List.mem_append.mp hd with h | h
  · have := List.eq_of_mem_replicate h; omega
  · exact b58ToDigits_lt n d (List.mem_reverse.mp h)

theorem b58Digits22_length (n : Nat) (h : n < 58 ^ 22) :
    (b58Digits22 n).length = 22 := by
  have hlen : (b58ToDigits n).reverse.length ≤ 22 := by
    rw [List.length_reverse]; exact b58ToDigits_length n 22 h
  unfold b58Digits22
  rw [List.length_append, List.length_replicate]
  omega

theorem msbValue_b58Digits22 (n : Nat) : msbValue (b58Digits22 n) = n := by
  unfold b58Digits22
  rw [msbValue_replicate_zero_append, msbValue_reverse]
  exact b58ToDigits_value n

theorem two_pow_128_lt : (2 : Nat) ^ 128 < 58 ^ 22 := by norm_num

/-- Valid 16-byte buffers encode to values below `2^128 = 256^16`. -/
theorem bytesToNat_lt_two_pow (b : List Nat) (hl : b.length = 16)
    (hb : ∀ x ∈ b, x < 256) : bytesToNat b < 2 ^ 128 := by
  have h := bytesToNat_lt b hb
  rw [hl] at h
  calc bytesToNat b < 256 ^ 16 := h
    _ = 2 ^ 128 := by norm_num

theorem charIdx_eq_none (l : List Char) (c : Char) (h : c ∉ l) :
    charIdx l c = none := by
  induction l with
  | nil => rfl
  | cons a r ih =>
    rw [charIdx, if_neg (by rintro rfl; exact h (List.mem_cons_self a r)),
      ih (fun hc => h (List.mem_cons_of_mem a hc))]
    rfl

theorem charIndices_eq_none (s : List Char) (c : Char) (hc : c ∈ s)
    (h : charIdx ALPHABET c = none) : charIndices s = none := by
  induction s with
  | nil => cases hc
  | cons a r ih =>
    rcases List.mem_cons.mp hc with rfl | hmem
    · rw [charIndices, h]
    · rw [charIndices, ih hmem]
      cases charIdx ALPHABET a <;> rfl

/-- C1: decoding the encoding of any 16-byte buffer returns the buffer. -/
theorem decode_b58_encode_b58 (b : List Nat) (hl : b.length = 16)
    (hb : ∀ x ∈ b, x < 256) : decode_b58 (encode_b58 b) = .ok b := by
  have hn : bytesToNat b < 2 ^ 128 := bytesToNat_lt_two_pow b hl hb
  have h58 : bytesToNat b < 58 ^ 22 := lt_trans hn two_pow_128_lt
  have hplen : (encode_b58 b).length = 22 := by
    rw [encode_b58, List.length_map]
    exact b58Digits22_length _ h58
  rw [decode_b58, if_pos hplen, encode_b58,
    charIndices_map _ (b58Digits22_lt _)]
  dsimp only
  rw [msbValue_b58Digits22, if_pos hn]
  have hbytes : natToBytes 16 (bytesToNat b) = b := by
    rw [← hl]; exact natToBytes_bytesToNat b hb
  rw [hbytes]

/-- Witness for C1 at the all-zero buffer. -/
theorem decode_b58_encode_b58_witness :
    (List.replicate 16 (0 : Nat)).length = 16 ∧
      (∀ x ∈ List.replicate 16 (0 : Nat), x < 256) ∧
      decode_b58 (encode_b58 (List.replicate 16 (0 : Nat))) =
        .ok (List.replicate 16 (0 : Nat)) :=
  ⟨by decide, by decide,
    decode_b58_encode_b58 (List.replicate 16 0) (by decide) (by decide)⟩

/-- C3: encoding any 16-byte buffer yields exactly 22 characters, and the
all-zero buffer encodes to 22 repetitions of the zero-index character `1`. -/
theorem encode_b58_length (b : List Nat) (hl : b.length = 16)
    (hb : ∀ x ∈ b, x < 256) :
    (encode_b58 b).length = 22 ∧
      encode_b58 (List.replicate 16 0) = List.replicate 22 '1' := by
  refine ⟨?_, by decide⟩
  have h58 : bytesToNat b < 58 ^ 22 :=
    lt_trans (bytesToNat_lt_two_pow b hl hb) two_pow_128_lt
  rw [encode_b58, List.length_map]
  exact b58Digits22_length _ h58

/-- Witness for C3 at the fixture buffer of claim C6. -/
theorem encode_b58_length_witness :
    ([0x55, 0x0e, 0x84, 0x00, 0xe2, 0x9b, 0x41, 0xd4,
        0xa7, 0x16, 0x44, 0x66, 0x55, 0x44, 0x00, 0x00] : List Nat).length = 16 ∧
      (∀ x ∈ ([0x55, 0x0e, 0x84, 0x00, 0xe2, 0x9b, 0x41, 0xd4,
        0xa7, 0x16, 0x44, 0x66, 0x55, 0x44, 0x00, 0x00] : List Nat), x < 256) ∧
      ((encode_b58 [0x55, 0x0e, 0x84, 0x00, 0xe2, 0x9b, 0x41, 0xd4,
        0xa7, 0x16, 0x44, 0x66, 0x55, 0x44, 0x00, 0x00]).length = 22 ∧
        encode_b58 (List.replicate 16 0) = List.replicate 22 '1') :=
  ⟨by decide, by decide, encode_b58_length _ (by decide) (by decide)⟩

/-- C4: decoding rejects every string whose length is not 22, and every
22-character string containing a character outside the Base58 alphabet,
with `InvalidB58Format`. -/
theorem decode_b58_rejects (s : List Char) :
    (s.length ≠ 22 → decode_b58 s = .error .invalidB58Format) ∧
      (∀ c ∈ s, c ∉ ALPHABET → decode_b58 s = .error .invalidB58Format) := by
  constructor
  · intro h
    rw [decode_b58, if_neg h]
  · intro c hc hm
    have hnone : charIndices s = none :=
      charIndices_eq_none s c hc (charIdx_eq_none ALPHABET c hm)
    by_cases hl : s.length = 22
    · rw [decode_b58, if_pos hl, hnone]
    · rw [decode_b58, if_neg hl]

/-- Witness for C4: a 21-character string, a 23-character string, and a
22-character string containing `0` are all rejected. -/
theorem decode_b58_rejects_witness :
    ((List.replicate 21 'a').length ≠ 22 ∧
        decode_b58 (List.replicate 21 'a') = .error .invalidB58Format) ∧
      ((List.replicate 23 'a').length ≠ 22 ∧
        decode_b58 (List.replicate 23 'a') = .error .invalidB58Format) ∧
      ('0' ∈ '0' :: List.replicate 21 'a' ∧ '0' ∉ ALPHABET ∧
        decode_b58 ('0' :: List.replicate 21 'a') = .error .invalidB58Format) :=
  ⟨⟨by decide, (decode_b58_rejects (List.replicate 21 'a')).1 (by decide)⟩,
    ⟨by decide, (decode_b58_rejects (List.replicate 23 'a')).1 (by decide)⟩,
    ⟨by decide, by decide,
      (decode_b58_rejects ('0' :: List.replicate 21 'a')).2 '0' (by decide)
        (by decide)⟩⟩

/-- C5: a 22-character alphabet-valid string whose accumulated base-58
value is at least `2^128` is rejected with `ValueOverflow`; in particular
the all-`z` string is, its value `58^22 - 1` lying above `2^128`. -/
theorem decode_b58_overflow (s : List Char) (ds : List Nat)
    (hlen : s.length = 22) (hidx : charIndices s = some ds)
    (hval : 2 ^ 128 ≤ msbValue ds) :
    decode_b58 s = .error .valueOverflow ∧
      decode_b58 (List.replicate 22 'z') = .error .valueOverflow := by
  refine ⟨?_, by decide⟩
  rw [decode_b58, if_pos hlen, hidx]
  dsimp only
  rw [if_neg (not_lt.mpr hval)]

/-- Witness for C5 at the all-`z` string. -/
theorem decode_b58_overflow_witness :
    (List.replicate 22 'z').length = 22 ∧
      charIndices (List.replicate 22 'z') = some (List.replicate 22 57) ∧
      2 ^ 128 ≤ msbValue (List.replicate 22 57) ∧
      decode_b58 (List.replicate 22 'z') = .error .valueOverflow :=
  ⟨by decide, by decide, by decide,
    (decode_b58_overflow (List.replicate 22 'z') (List.replicate 22 57)
      (by decide) (by decide) (by decide)).1⟩

/-- C6: the fixture UUID `550e8400-e29b-41d4-a716-446655440000` encodes to
`BWBeN28Vb7cMEx7Ym8AUzs`, and that string decodes back to the same
lowercase hyphenated UUID text. -/
theorem fixture_roundtrip :
    encode_uuid "550e8400-e29b-41d4-a716-446655440000".toList =
        .ok "BWBeN28Vb7cMEx7Ym8AUzs".toList ∧
      decode_to_uuid "BWBeN28Vb7cMEx7Ym8AUzs".toList =
        .ok "550e8400-e29b-41d4-a716-446655440000".toList := by
  constructor
  · decide
  · decide

/-- C8: every character of every encoding of a 16-byte buffer lies in the
Base58 alphabet, and none is `0`, `O`, `I` or `l`. -/
theorem encode_b58_alphabet (b : List Nat) (hl : b.length = 16)
    (hb : ∀ x ∈ b, x < 256) :
    ∀ c ∈ encode_b58 b, c ∈ ALPHABET ∧
      c ≠ '0' ∧ c ≠ 'O' ∧ c ≠ 'I' ∧ c ≠ 'l' := by
  have hchar : ∀ d, d < 58 → b58Char d ∈ ALPHABET ∧
      b58Char d ≠ '0' ∧ b58Char d ≠ 'O' ∧ b58Char d ≠ 'I' ∧ b58Char d ≠ 'l' := by
    decide
  intro c hc
  rw [encode_b58] at hc
  obtain ⟨d, hd, rfl⟩ := List.mem_map.mp hc
  exact hchar d (b58Digits22_lt _ d hd)

/-! ## Hex digit lemmas for the UUID parser and formatter -/

theorem hexVal_hexChar (c : Char) (v : Nat) (h : hexVal c = some v) :
    v < 16 ∧ hexChar v = lowerChar c := by
  unfold hexVal at h
  split_ifs at h with h1 h2 h3
  · injection h with hv; subst hv
    refine ⟨by omega, ?_⟩
    rw [hexChar, if_pos (by omega), lowerChar, if_neg (by omega)]
    have harg : 48 + (c.toNat - 48) = c.toNat := by omega
    rw [harg, Char.ofNat_toNat]
  · injection h with hv; subst hv
    refine ⟨by omega, ?_⟩
    rw [hexChar, if_neg (by omega), lowerChar, if_neg (by omega)]
    have harg : 87 + (c.toNat - 87) = c.toNat := by omega
    rw [harg, Char.ofNat_toNat]
  · injection h with hv; subst hv
    refine ⟨by omega, ?_⟩
    rw [hexChar, if_neg (by omega), lowerChar, if_pos (by omega)]
    have harg : 87 + (c.toNat - 55) = c.toNat + 32 := by omega
    rw [harg]

theorem byteHex_split (h l : Nat) (hh : h < 16) (hl : l < 16) :
    byteHex (h * 16 + l) = [hexChar h, hexChar l] := by
  have hdiv : (h * 16 + l) / 16 = h := by omega
  have hmod : (h * 16 + l) % 16 = l := by omega
  rw [byteHex, hdiv, hmod]

theorem hexPairs_spec :
    ∀ (l : List Char) (bs : List Nat), hexPairs l = some bs →
      bs.flatMap byteHex = l.map lowerChar ∧ (∀ x ∈ bs, x < 256) ∧
        2 * bs.length = l.length ∧ ∀ c ∈ l, (hexVal c).isSome
  | [], bs, h => by
    rw [hexPairs] at h
    injection h with h
    subst h
    exact ⟨rfl, by simp, rfl, by simp⟩
  | c1 :: c2 :: rest, bs, h => by
    rw [hexPairs] at h
    cases h1 : hexVal c1 with
    | none => rw [h1] at h; exact absurd h (by simp)
    | some v1 =>
      cases h2 : hexVal c2 with
      | none => rw [h1, h2] at h; exact absurd h (by simp)
      | some v2 =>
        cases h3 : hexPairs rest with
        | none => rw [h1, h2, h3] at h; exact absurd h (by simp)
        | some r =>
          rw [h1, h2, h3] at h
          injection h with h
          subst h
          obtain ⟨hv1, hc1⟩ := hexVal_hexChar c1 v1 h1
          obtain ⟨hv2, hc2⟩ := hexVal_hexChar c2 v2 h2
          obtain ⟨ihflat, ihlt, ihlen, ihhex⟩ := hexPairs_spec rest r h3
          refine ⟨?_, ?_, ?_, ?_⟩
          · rw [List.flatMap_cons, byteHex_split v1 v2 hv1 hv2, ihflat,
              List.map_cons, List.map_cons, hc1, hc2]
            rfl
          · intro x hx
            rcases List.mem_cons.mp hx with rfl | hx
            · omega
            · exact ihlt x hx
          · simp only [List.length_cons]
            omega
          · intro c hc
            rcases List.mem_cons.mp hc with rfl | hc
            · rw [h1]; rfl
            · rcases List.mem_cons.mp hc with rfl | hc
              · rw [h2]; rfl
              · exact ihhex c hc
  | [c], bs, h => by
    rw [hexPairs] at h
    exact absurd h (by simp)

theorem hexPairs_isSome (k : Nat) :
    ∀ l : List Char, l.length = 2 * k → (∀ c ∈ l, (hexVal c).isSome) →
      ∃ bs, hexPairs l = some bs := by
  induction k with
  | zero =>
    intro l hl _
    have : l = [] := List.eq_nil_of_length_eq_zero (by omega)
    subst this
    exact ⟨[], rfl⟩
  | succ k' ih =>
    intro l hl hhex
    match l, hl with
    | c1 :: c2 :: rest, hl =>
      obtain ⟨v1, h1⟩ := Option.isSome_iff_exists.mp (hhex c1 (by simp))
      obtain ⟨v2, h2⟩ := Option.isSome_iff_exists.mp (hhex c2 (by simp))
      obtain ⟨bs, h3⟩ := ih rest (by simp at hl; omega)
        (fun c hc => hhex c (by simp [hc]))
      refine ⟨(v1 * 16 + v2) :: bs, ?_⟩
      rw [hexPairs, h1, h2, h3]

/-! ## Structure of accepted UUID texts -/

/-- Splitting a list at a known character. -/
theorem split_at_char (l : List Char) (n : Nat) (c : Char)
    (h : l.get? n = some c) : l = l.take n ++ c :: l.drop (n + 1) := by
  obtain ⟨hn, hg⟩ := List.get?_eq_some.mp h
  subst hg
  conv_lhs => rw [← List.take_append_drop n l]
  congr 1
  exact (List.getElem_cons_drop l n hn).symm

/-- `hyphenate` on a concatenation of groups of lengths 8-4-4-4 inserts
the hyphens exactly between the groups. -/
theorem hyphenate_groups (A B C D E : List Char) (hA : A.length = 8)
    (hB : B.length = 4) (hC : C.length = 4) (hD : D.length = 4) :
    hyphenate (A ++ (B ++ (C ++ (D ++ E)))) =
      A ++ '-' :: (B ++ '-' :: (C ++ '-' :: (D ++ '-' :: E))) := by
  unfold hyphenate
  rw [List.take_left' hA, List.drop_left' hA, List.take_left' hB,
    List.drop_left' hB, List.take_left' hC, List.drop_left' hC,
    List.take_left' hD, List.drop_left' hD]

/-- A 36-character text with hyphens at the canonical positions and 32
non-hyphen characters splits into hyphen-free groups of lengths
8-4-4-4-12. -/
theorem uuid_groups (s : List Char)
    (hflen : (s.filter (fun c => c ≠ '-')).length = 32)
    (h36 : s.length = 36) (h8 : s.get? 8 = some '-')
    (h13 : s.get? 13 = some '-') (h18 : s.get? 18 = some '-')
    (h23 : s.get? 23 = some '-') :
    ∃ A B C D E : List Char,
      s = A ++ '-' :: (B ++ '-' :: (C ++ '-' :: (D ++ '-' :: E))) ∧
      A.length = 8 ∧ B.length = 4 ∧ C.length = 4 ∧ D.length = 4 ∧
      E.length = 12 ∧
      s.filter (fun c => c ≠ '-') = A ++ (B ++ (C ++ (D ++ E))) ∧
      s.filter (fun c => c = '-') = ['-', '-', '-', '-'] := by
  have e1 : s = s.take 8 ++ '-' :: s.drop 9 := split_at_char s 8 '-' h8
  have h13' : (s.drop 9).get? 4 = some '-' := by
    rw [List.get?_drop]; exact h13
  have hd14 : (s.drop 9).drop 5 = s.drop 14 := by rw [List.drop_drop]
  have e2 : s.drop 9 = (s.drop 9).take 4 ++ '-' :: s.drop 14 := by
    rw [← hd14]; exact split_at_char _ 4 '-' h13'
  have h18' : (s.drop 14).get? 4 = some '-' := by
    rw [List.get?_drop]; exact h18
  have hd19 : (s.drop 14).drop 5 = s.drop 19 := by rw [List.drop_drop]
  have e3 : s.drop 14 = (s.drop 14).take 4 ++ '-' :: s.drop 19 := by
    rw [← hd19]; exact split_at_char _ 4 '-' h18'
  have h23' : (s.drop 19).get? 4 = some '-' := by
    rw [List.get?_drop]; exact h23
  have hd24 : (s.drop 19).drop 5 = s.drop 24 := by rw [List.drop_drop]
  have e4 : s.drop 19 = (s.drop 19).take 4 ++ '-' :: s.drop 24 := by
    rw [← hd24]; exact split_at_char _ 4 '-' h23'
  have sdecomp : s = s.take 8 ++ '-' :: ((s.drop 9).take 4 ++ '-' ::
      ((s.drop 14).take 4 ++ '-' :: ((s.drop 19).take 4 ++ '-' :: s.drop 24))) := by
    conv_lhs => rw [e1, e2, e3, e4]
  have hA : (s.take 8).length = 8 := by rw [List.length_take, h36]; decide
  have hB : ((s.drop 9).take 4).length = 4 := by
    rw [List.length_take, List.length_drop, h36]; decide
  have hC : ((s.drop 14).take 4).length = 4 := by
    rw [List.length_take, List.length_drop, h36]; decide
  have hD : ((s.drop 19).take 4).length = 4 := by
    rw [List.length_take, List.length_drop, h36]; decide
  have hE : (s.drop 24).length = 12 := by rw [List.length_drop, h36]
  refine ⟨s.take 8, (s.drop 9).take 4, (s.drop 14).take 4, (s.drop 19).take 4,
    s.drop 24, sdecomp, hA, hB, hC, hD, hE, ?_⟩
  have hfeq : s.filter (fun c => c ≠ '-') =
      (s.take 8).filter (fun c => c ≠ '-') ++
        (((s.drop 9).take 4).filter (fun c => c ≠ '-') ++
          (((s.drop 14).take 4).filter (fun c => c ≠ '-') ++
            (((s.drop 19).take 4).filter (fun c => c ≠ '-') ++
              (s.drop 24).filter (fun c => c ≠ '-')))) := by
    conv_lhs => rw [sdecomp]
    simp [List.filter_append, List.filter_cons]
  have lA := List.length_filter_le (fun c => decide (c ≠ '-')) (s.take 8)
  have lB := List.length_filter_le (fun c => decide (c ≠ '-')) ((s.drop 9).take 4)
  have lC := List.length_filter_le (fun c => decide (c ≠ '-')) ((s.drop 14).take 4)
  have lD := List.length_filter_le (fun c => decide (c ≠ '-')) ((s.drop 19).take 4)
  have lE := List.length_filter_le (fun c => decide (c ≠ '-')) (s.drop 24)
  rw [hA] at lA; rw [hB] at lB; rw [hC] at lC; rw [hD] at lD; rw [hE] at lE
  have hsum : ((s.take 8).filter (fun c => c ≠ '-')).length +
      ((((s.drop 9).take 4).filter (fun c => c ≠ '-')).length +
        ((((s.drop 14).take 4).filter (fun c => c ≠ '-')).length +
          ((((s.drop 19).take 4).filter (fun c => c ≠ '-')).length +
            (((s.drop 24)).filter (fun c => c ≠ '-')).length))) = 32 := by
    rw [← List.length_append, ← List.length_append, ← List.length_append,
      ← List.length_append, ← hfeq, hflen]
  have fA : (s.take 8).filter (fun c => c ≠ '-') = s.take 8 :=
    (List.filter_sublist _).eq_of_length (by rw [hA]; omega)
  have fB : ((s.drop 9).take 4).filter (fun c => c ≠ '-') = (s.drop 9).take 4 :=
    (List.filter_sublist _).eq_of_length (by rw [hB]; omega)
  have fC : ((s.drop 14).take 4).filter (fun c => c ≠ '-') = (s.drop 14).take 4 :=
    (List.filter_sublist _).eq_of_length (by rw [hC]; omega)
  have fD : ((s.drop 19).take 4).filter (fun c => c ≠ '-') = (s.drop 19).take 4 :=
    (List.filter_sublist _).eq_of_length (by rw [hD]; omega)
  have fE : (s.drop 24).filter (fun c => c ≠ '-') = s.drop 24 :=
    (List.filter_sublist _).eq_of_length (by rw [hE]; omega)
  constructor
  · rw [hfeq, fA, fB, fC, fD, fE]
  · have gA : (s.take 8).filter (fun c => c = '-') = [] := by
      rw [List.filter_eq_nil_iff]
      intro a ha
      have := List.filter_eq_self.mp fA a ha
      simpa using this
    have gB : ((s.drop 9).take 4).filter (fun c => c = '-') = [] := by
      rw [List.filter_eq_nil_iff]
      intro a ha
      have := List.filter_eq_self.mp fB a ha
      simpa using this
    have gC : ((s.drop 14).take 4).filter (fun c => c = '-') = [] := by
      rw [List.filter_eq_nil_iff]
      intro a ha
      have := List.filter_eq_self.mp fC a ha
      simpa using this
    have gD : ((s.drop 19).take 4).filter (fun c => c = '-') = [] := by
      rw [List.filter_eq_nil_iff]
      intro a ha
      have := List.filter_eq_self.mp fD a ha
      simpa using this
    have gE : (s.drop 24).filter (fun c => c = '-') = [] := by
      rw [List.filter_eq_nil_iff]
      intro a ha
      have := List.filter_eq_self.mp fE a ha
      simpa using this
    conv_lhs => rw [sdecomp]
    simp [List.filter_append, List.filter_cons, gA, gB, gC, gD, gE]

/-- Elimination for a successful parse: the acceptance condition holds and
the stripped hex digits decode to the returned bytes. -/
theorem parse_uuid_ok_elim (s : List Char) (b : List Nat)
    (h : parse_uuid s = .ok b) :
    ((s.filter (fun c => c ≠ '-')).length = 32 ∧
      (s.filter (fun c => c ≠ '-') = s ∨
        (s.length = 36 ∧ s.get? 8 = some '-' ∧ s.get? 13 = some '-' ∧
          s.get? 18 = some '-' ∧ s.get? 23 = some '-'))) ∧
      hexPairs (s.filter (fun c => c ≠ '-')) = some b := by
  simp only [parse_uuid] at h
  split_ifs at h with hc
  · cases hp : hexPairs (s.filter (fun c => c ≠ '-')) with
    | none => rw [hp] at h; cases h
    | some bs =>
      rw [hp] at h
      injection h with h
      subst h
      exact ⟨hc, rfl⟩

/-- Introduction for a successful parse. -/
theorem parse_uuid_ok_intro (s : List Char) (b : List Nat)
    (hc : (s.filter (fun c => c ≠ '-')).length = 32 ∧
      (s.filter (fun c => c ≠ '-') = s ∨
        (s.length = 36 ∧ s.get? 8 = some '-' ∧ s.get? 13 = some '-' ∧
          s.get? 18 = some '-' ∧ s.get? 23 = some '-')))
    (hp : hexPairs (s.filter (fun c => c ≠ '-')) = some b) :
    parse_uuid s = .ok b := by
  simp only [parse_uuid]
  rw [if_pos hc, hp]

/-- `parse_uuid` either succeeds or fails with `InvalidUuidFormat` carrying
the whole input; no other error kind arises. -/
theorem parse_uuid_error_shape (s : List Char) :
    (∃ b, parse_uuid s = .ok b) ∨
      parse_uuid s = .error (.invalidUuidFormat s) := by
  simp only [parse_uuid]
  split_ifs with hc
  · cases hp : hexPairs (s.filter (fun c => c ≠ '-')) with
    | none => exact Or.inr rfl
    | some bs => exact Or.inl ⟨bs, rfl⟩
  · exact Or.inr rfl

/-- Witness for C8 at the all-zero buffer. -/
theorem encode_b58_alphabet_witness :
    (List.replicate 16 (0 : Nat)).length = 16 ∧
      (∀ x ∈ List.replicate 16 (0 : Nat), x < 256) ∧
      ∀ c ∈ encode_b58 (List.replicate 16 0), c ∈ ALPHABET ∧
        c ≠ '0' ∧ c ≠ 'O' ∧ c ≠ 'I' ∧ c ≠ 'l' :=
  ⟨by decide, by decide,
    encode_b58_alphabet (List.replicate 16 0) (by decide) (by decide)⟩

/-- C2 counterexample: the hyphen-less text
`550e8400e29b41d4a716446655440000` is a syntactically valid UUID text and
parses successfully, but formatting the parse result yields the hyphenated
form, which is not textually identical to the lowercase-normalization of
the input. -/
theorem format_parse_counterexample :
    parse_uuid "550e8400e29b41d4a716446655440000".toList =
        .ok [0x55, 0x0e, 0x84, 0x00, 0xe2, 0x9b, 0x41, 0xd4,
          0xa7, 0x16, 0x44, 0x66, 0x55, 0x44, 0x00, 0x00] ∧
      formatUuid [0x55, 0x0e, 0x84, 0x00, 0xe2, 0x9b, 0x41, 0xd4,
          0xa7, 0x16, 0x44, 0x66, 0x55, 0x44, 0x00, 0x00] ≠
        ("550e8400e29b41d4a716446655440000".toList).map lowerChar := by
  exact ⟨by decide, by decide⟩

/-- C2 (amended): for every accepted UUID text, formatting the parse
result yields the canonical form — lowercase hex of the hyphen-stripped
input re-hyphenated at positions 8, 13, 18, 23 — and whenever the input is
in hyphenated (36-character) form this equals the lowercase-normalization
of the input itself.  Parsing is thus case-insensitive and formatting
always emits lowercase with hyphens at the canonical positions. -/
theorem format_parse (s : List Char) (b : List Nat)
    (h : parse_uuid s = .ok b) :
    formatUuid b = hyphenate ((s.filter (fun c => c ≠ '-')).map lowerChar) ∧
      (s.length = 36 → formatUuid b = s.map lowerChar) := by
  obtain ⟨⟨hflen, hdisj⟩, hp⟩ := parse_uuid_ok_elim s b h
  have hflat := (hexPairs_spec _ _ hp).1
  have main : formatUuid b =
      hyphenate ((s.filter (fun c => c ≠ '-')).map lowerChar) := by
    rw [formatUuid, hflat]
  refine ⟨main, fun h36 => ?_⟩
  rcases hdisj with hid | ⟨-, h8, h13, h18, h23⟩
  · rw [hid, h36] at hflen; omega
  · obtain ⟨A, B, C, D, E, sdecomp, hA, hB, hC, hD, hE, hfilter, -⟩ :=
      uuid_groups s hflen h36 h8 h13 h18 h23
    have hlow : lowerChar '-' = '-' := by decide
    rw [main, hfilter, List.map_append, List.map_append, List.map_append,
      List.map_append,
      hyphenate_groups _ _ _ _ _ (by rw [List.length_map, hA])
        (by rw [List.length_map, hB]) (by rw [List.length_map, hC])
        (by rw [List.length_map, hD])]
    conv_rhs => rw [sdecomp]
    simp [List.map_append, List.map_cons, hlow]

/-- Witness for C2 at an uppercase hyphenated input: parsing is
case-insensitive and formatting returns the lowercase text. -/
theorem format_parse_witness :
    parse_uuid "550E8400-E29B-41D4-A716-446655440000".toList =
        .ok [0x55, 0x0e, 0x84, 0x00, 0xe2, 0x9b, 0x41, 0xd4,
          0xa7, 0x16, 0x44, 0x66, 0x55, 0x44, 0x00, 0x00] ∧
      (formatUuid [0x55, 0x0e, 0x84, 0x00, 0xe2, 0x9b, 0x41, 0xd4,
          0xa7, 0x16, 0x44, 0x66, 0x55, 0x44, 0x00, 0x00] =
        hyphenate ((("550E8400-E29B-41D4-A716-446655440000".toList).filter
          (fun c => c ≠ '-')).map lowerChar) ∧
        ("550E8400-E29B-41D4-A716-446655440000".toList.length = 36 →
          formatUuid [0x55, 0x0e, 0x84, 0x00, 0xe2, 0x9b, 0x41, 0xd4,
            0xa7, 0x16, 0x44, 0x66, 0x55, 0x44, 0x00, 0x00] =
            "550E8400-E29B-41D4-A716-446655440000".toList.map lowerChar)) :=
  ⟨by decide, format_parse _ _ (by decide)⟩

/-- C7: `parse_uuid` accepts exactly the texts that are 32 case-insensitive
hex digits once hyphens are removed, with hyphens (when present at all)
appearing exactly at positions 8, 13, 18, 23; every other input fails with
`InvalidUuidFormat` carrying the offending input. -/
theorem parse_uuid_claim (s : List Char) :
    ((∃ b, parse_uuid s = .ok b) ↔ uuidClaimValid s) ∧
      (¬ uuidClaimValid s →
        parse_uuid s = .error (.invalidUuidFormat s)) := by
  have mp : (∃ b, parse_uuid s = .ok b) → uuidClaimValid s := by
    rintro ⟨b, hb⟩
    obtain ⟨⟨hflen, hdisj⟩, hp⟩ := parse_uuid_ok_elim s b hb
    refine ⟨⟨hflen, (hexPairs_spec _ _ hp).2.2.2⟩, fun hmem => ?_⟩
    rcases hdisj with hid | ⟨h36, h8, h13, h18, h23⟩
    · have := List.filter_eq_self.mp hid '-' hmem
      simp at this
    · obtain ⟨-, -, -, -, -, -, -, -, -, -, -, -, hcount⟩ :=
        uuid_groups s hflen h36 h8 h13 h18 h23
      exact ⟨h36, h8, h13, h18, h23, by rw [hcount]; rfl⟩
  have mpr : uuidClaimValid s → ∃ b, parse_uuid s = .ok b := by
    rintro ⟨⟨hflen, hhex⟩, hhyp⟩
    obtain ⟨bs, hp⟩ := hexPairs_isSome 16 (s.filter (fun c => c ≠ '-'))
      (by omega) hhex
    refine ⟨bs, parse_uuid_ok_intro s bs ⟨hflen, ?_⟩ hp⟩
    by_cases hmem : '-' ∈ s
    · obtain ⟨h36, h8, h13, h18, h23, -⟩ := hhyp hmem
      exact Or.inr ⟨h36, h8, h13, h18, h23⟩
    · refine Or.inl (List.filter_eq_self.mpr fun c hc => ?_)
      simp only [decide_eq_true_eq]
      rintro rfl
      exact hmem hc
  refine ⟨⟨mp, mpr⟩, fun hnv => ?_⟩
  rcases parse_uuid_error_shape s with hok | herr
  · exact absurd (mp hok) hnv
  · exact herr

/-- Witness for C7: the malformed text `xyz` is invalid and is rejected
with `InvalidUuidFormat` carrying the input. -/
theorem parse_uuid_claim_witness :
    ¬ uuidClaimValid ['x', 'y', 'z'] ∧
      parse_uuid ['x', 'y', 'z'] =
        .error (.invalidUuidFormat ['x', 'y', 'z']) :=
  ⟨by decide, (parse_uuid_claim ['x', 'y', 'z']).2 (by decide)⟩

/-! ## Whitespace trimming in the CLI front-end -/

theorem dropWhile_head_not {α : Type} (p : α → Bool) :
    ∀ (l : List α) (c : α) (t : List α),
      List.dropWhile p l = c :: t → p c = false := by
  intro l
  induction l with
  | nil => intro c t h; cases h
  | cons a r ih =>
    intro c t h
    by_cases hp : p a
    · rw [List.dropWhile_cons_of_pos hp] at h
      exact ih c t h
    · rw [List.dropWhile_cons_of_neg hp] at h
      injection h with h1 h2
      subst h1
      simpa using hp

theorem dropWhile_idem {α : Type} (p : α → Bool) (l : List α) :
    List.dropWhile p (List.dropWhile p l) = List.dropWhile p l := by
  cases h : List.dropWhile p l with
  | nil => rfl
  | cons c t =>
    exact List.dropWhile_cons_of_neg (by simp [dropWhile_head_not p l c t h])

theorem rustTrim_fixed (A : List Char)
    (h1 : List.dropWhile Char.isWhitespace A = A)
    (h2 : List.dropWhile Char.isWhitespace A.reverse = A.reverse) :
    rustTrim A = A := by
  unfold rustTrim
  rw [h1, h2, List.reverse_reverse]

theorem dropWhile_rustTrim (s : List Char) :
    List.dropWhile Char.isWhitespace (rustTrim s) = rustTrim s := by
  cases hBr : rustTrim s with
  | nil => rfl
  | cons c t =>
    have hpre : rustTrim s <+: List.dropWhile Char.isWhitespace s := by
      have h2 := List.reverse_prefix.mpr
        (List.dropWhile_suffix
          (l := (List.dropWhile Char.isWhitespace s).reverse)
          Char.isWhitespace)
      rwa [List.reverse_reverse] at h2
    rw [hBr] at hpre
    obtain ⟨r, hr⟩ := hpre
    have hc : Char.isWhitespace c = false := by
      apply dropWhile_head_not Char.isWhitespace s c (t ++ r)
      rw [← hr]
      rfl
    exact List.dropWhile_cons_of_neg (by simp [hc])

theorem rustTrim_reverse_fixed (s : List Char) :
    List.dropWhile Char.isWhitespace ((rustTrim s).reverse) =
      (rustTrim s).reverse := by
  have hrev : (rustTrim s).reverse =
      List.dropWhile Char.isWhitespace
        ((List.dropWhile Char.isWhitespace s).reverse) := by
    unfold rustTrim
    rw [List.reverse_reverse]
  rw [hrev]
  exact dropWhile_idem _ _

theorem rustTrim_idem (s : List Char) : rustTrim (rustTrim s) = rustTrim s :=
  rustTrim_fixed (rustTrim s) (dropWhile_rustTrim s) (rustTrim_reverse_fixed s)

/-- C10: every CLI entry point trims its input before invoking the codec,
so its observable result on any input equals its result on the trimmed
input. -/
theorem cli_entry_points_trim (s : List Char) :
    encode_single s = encode_single (rustTrim s) ∧
      decode_single s = decode_single (rustTrim s) ∧
      validate_value s = validate_value (rustTrim s) ∧
      encodeLine s = encodeLine (rustTrim s) ∧
      decodeLine s = decodeLine (rustTrim s) := by
  simp only [encode_single, decode_single, validate_value, encodeLine,
    decodeLine, rustTrim_idem]
  exact ⟨trivial, trivial, trivial, trivial, trivial⟩

/-- C9: in batch mode, a line on which the codec fails contributes exactly
one error report and does not abort the remaining lines: the events of the
earlier and later lines are produced unchanged, in input line order. -/
theorem batch_error_continues :
    (∀ (pre post : List (List Char)) (bad : List Char) (e : CodecErr),
        rustTrim bad ≠ [] → encode_uuid (rustTrim bad) = .error e →
        encodeBatch (pre ++ bad :: post) =
          encodeBatch pre ++ .err (rustTrim bad) e :: encodeBatch post) ∧
      ∀ (pre post : List (List Char)) (bad : List Char) (e : CodecErr),
        rustTrim bad ≠ [] → decode_to_uuid (rustTrim bad) = .error e →
        decodeBatch (pre ++ bad :: post) =
          decodeBatch pre ++ .err (rustTrim bad) e :: decodeBatch post := by
  constructor
  · intro pre post bad e hne herr
    have hline : encodeLine bad = [.err (rustTrim bad) e] := by
      simp only [encodeLine]
      rw [if_neg hne, herr]
    rw [encodeBatch, List.flatMap_append, List.flatMap_cons, hline]
    rfl
  · intro pre post bad e hne herr
    have hline : decodeLine bad = [.err (rustTrim bad) e] := by
      simp only [decodeLine]
      rw [if_neg hne, herr]
    rw [decodeBatch, List.flatMap_append, List.flatMap_cons, hline]
    rfl

/-- Witness for C9: a batch of three lines whose middle line is malformed
reports one error for it and still encodes the surrounding lines, in
order. -/
theorem batch_error_continues_witness :
    rustTrim "zz".toList ≠ [] ∧
      encode_uuid (rustTrim "zz".toList) =
        .error (.invalidUuidFormat "zz".toList) ∧
      encodeBatch (["550e8400-e29b-41d4-a716-446655440000".toList] ++
          "zz".toList :: ["550e8400-e29b-41d4-a716-446655440000".toList]) =
        encodeBatch ["550e8400-e29b-41d4-a716-446655440000".toList] ++
          .err (rustTrim "zz".toList) (.invalidUuidFormat "zz".toList) ::
            encodeBatch ["550e8400-e29b-41d4-a716-446655440000".toList] :=
  ⟨by decide, by decide,
    batch_error_continues.1 _ _ _ _ (by decide) (by decide)⟩

end B58Uuid
